import Mathlib

/-!
Verification of the dialog-parser / TTS pipeline.

This file gives a shallow embedding, over `List Char` and `String`, of the
two pipeline stages of the repository (`main.py`: candidate extraction,
context windows, speaker attribution; `openaifm.py`: text chunking, voice
configuration resolution, audio filename generation) and settles the
specification claims about them.

Modelling conventions:
* Python strings are `List Char` (or Lean `String`, whose data is a
  `List Char`).
* Python's whitespace class (used by `str.strip`, by the regex class `\s`
  and by `str.split()`) is modelled on the ASCII range by `pyIsSpace`.
* Python's Unicode-aware regex class `\w` is modelled by `pyWordChar` for
  code points up to U+00FF (ASCII plus the Latin-1 supplement); higher code
  points are treated as non-word characters.
* The two float constants `0.8` and `0.3` of the confidence policy are
  modelled as exact rationals; no float arithmetic is performed on them in
  the source.
* The external Ollama backend is modelled by the raw response string it
  returns for each query; a transport failure is the empty response, which
  is exactly what `query_ollama` returns on any error.
-/

set_option maxHeartbeats 1000000

/-- Python's whitespace character class on the ASCII range: the characters
matched by `str.strip()`, `str.split()` and the regex class `\s`. -/
def pyIsSpace (c : Char) : Bool :=
  c = ' ' || c = '\t' || c = '\n' || c = '\r' || c = '\x0b' || c = '\x0c'

/-- The sentence-terminating characters of the chunker's split pattern
`(?<=[.!?])\s+` in `openaifm.py`. -/
def isSentenceEnd (c : Char) : Bool :=
  c = '.' || c = '!' || c = '?'

/-- Python `str.strip()`: remove leading and trailing whitespace. -/
def stripChars (l : List Char) : List Char :=
  ((l.dropWhile pyIsSpace).reverse.dropWhile pyIsSpace).reverse

/-- Helper for `wordsOf`: `cur` holds the (reversed) current token. -/
def wordsAux : List Char → List Char → List (List Char)
  | cur, [] => if cur = [] then [] else [cur.reverse]
  | cur, c :: rest =>
    if pyIsSpace c then (if cur = [] then [] else [cur.reverse]) ++ wordsAux [] rest
    else wordsAux (c :: cur) rest

/-- The maximal whitespace-free tokens of a character list, in order
(Python's `str.split()` with no argument).  Two texts are equal "up to
whitespace collapsing and trimming" exactly when they have the same
`wordsOf`. -/
def wordsOf (l : List Char) : List (List Char) :=
  wordsAux [] l

/-- Python `"\n".join`-style join with a single space between consecutive
elements (`" ".join(chunks)`). -/
def joinSp : List (List Char) → List Char
  | [] => []
  | [x] => x
  | x :: y :: ys => x ++ ' ' :: joinSp (y :: ys)

/- ### `main.py` : candidate extraction -/

/-- Python `text.split('\n')`: split at every newline, keeping empty
pieces (splitting the empty string yields one empty piece). -/
def splitNl : List Char → List (List Char)
  | [] => [[]]
  | c :: rest =>
    if c = '\n' then [] :: splitNl rest
    else
      match splitNl rest with
      | [] => [[c]]
      | h :: t => (c :: h) :: t

/-- The dialogue-candidate test of `extract_potential_dialogue`
(`main.py` lines 32-34), applied to the stripped line: contains a straight
double quote, contains a straight single quote, starts with a straight
double or single quote, contains an em dash, or contains an en dash. -/
def isCandidate (line : List Char) : Bool :=
  line.contains '"' || line.contains '\'' ||
  decide (line.head? = some '"') || decide (line.head? = some '\'') ||
  line.contains '—' || line.contains '–'

/-- The loop of `extract_potential_dialogue`: `idx` is the 0-based index of
the first line of `lines` in the document; a stripped non-empty line
passing `isCandidate` is emitted with its 1-based line number. -/
def extractAux (idx : Nat) : List (List Char) → List (List Char × Nat)
  | [] => []
  | line :: rest =>
    let l := stripChars line
    (if l ≠ [] ∧ isCandidate l then [(l, idx + 1)] else []) ++ extractAux (idx + 1) rest

/-- `BookDialogParser.extract_potential_dialogue` (`main.py` lines 21-37). -/
def extract_potential_dialogue (text : List Char) : List (List Char × Nat) :=
  extractAux 0 (splitNl text)

/-- The candidate predicate the specification describes for the Candidate
Scanner: the line simply contains one of the four marker characters.
Stated from the spec's words, to be compared with `isCandidate`. -/
def specCandidate (line : List Char) : Bool :=
  line.contains '"' || line.contains '\'' || line.contains '—' || line.contains '–'

/- ### `main.py` : context windows -/

/-- The context-window computation of `parse_book` (`main.py` lines
126-129): `all_lines[max(0, n-4) : min(len(all_lines), n+3)]`, each line
stripped, empty lines dropped.  `n` is the 1-based line number, so the
slice covers 1-based lines `n-3 .. n+2` clamped to the document. -/
def contextWindow (allLines : List (List Char)) (lineNumber : Nat) : List (List Char) :=
  let start_idx := lineNumber - 4
  let end_idx := min allLines.length (lineNumber + 3)
  ((allLines.drop start_idx).take (end_idx - start_idx)).filterMap
    (fun l => let s := stripChars l; if s = [] then none else some s)

/-- The context sequence `identify_speaker` joins into its prompt
(`main.py` line 70): `context_lines[-3:] + [dialogue_line] + context_lines[:2]`. -/
def promptContext (dialogue_line : List Char) (context_lines : List (List Char)) :
    List (List Char) :=
  context_lines.drop (context_lines.length - 3) ++ [dialogue_line] ++ context_lines.take 2

/- ### `main.py` : speaker attribution -/

/-- Python `str.strip()` on `String`. -/
def pyStrip (s : String) : String :=
  ⟨stripChars s.data⟩

/-- Python `str.upper()`, modelled on the ASCII range. -/
def pyUpper (s : String) : String :=
  ⟨s.data.map Char.toUpper⟩

/-- The label normalisation of `identify_speaker` (`main.py` line 90):
`response.strip().upper()`. -/
def normalizeLabel (response : String) : String :=
  pyUpper (pyStrip response)

/-- The character-set update of `identify_speaker` (`main.py` lines 96-97):
the speaker is added only when it is none of `UNKNOWN`, `NARRATOR`, `""`. -/
def updateCharacters (chars : Finset String) (speaker : String) : Finset String :=
  if speaker ∉ (["UNKNOWN", "NARRATOR", ""] : List String) then insert speaker chars
  else chars

/-- The pure core of `identify_speaker` (`main.py` lines 87-99), given the
raw backend response (a failed backend call yields `""`): returns the
normalised speaker with its confidence, and the updated character set.
The confidence test (line 93) checks membership in `["UNKNOWN","NARRATOR"]`
only. -/
def identify_speaker (chars : Finset String) (response : String) :
    (String × ℚ) × Finset String :=
  let speaker := normalizeLabel response
  let confidence : ℚ :=
    if speaker ∉ (["UNKNOWN", "NARRATOR"] : List String) then 0.8 else 0.3
  ((speaker, confidence), updateCharacters chars speaker)

/-- The attribution loop of `parse_book` over the sequence of raw backend
responses, threading the character set through `identify_speaker`; returns
the attributed `(speaker, confidence)` pairs in order together with the
final character set. -/
def runAttributions : Finset String → List String → List (String × ℚ) × Finset String
  | chars, [] => ([], chars)
  | chars, r :: rs =>
    let step := identify_speaker chars r
    let rest := runAttributions step.2 rs
    (step.1 :: rest.1, rest.2)

/- ### `openaifm.py` : sentence splitting and chunking -/

/-- Auxiliary length bound used for termination below. -/
theorem length_dropWhile_le (p : Char → Bool) (l : List Char) :
    (l.dropWhile p).length ≤ l.length := by
  induction l with
  | nil => simp [List.dropWhile]
  | cons c rest ih =>
    simp only [List.dropWhile]
    cases p c <;> simp <;> omega

/-- Scanner for `re.split(r'(?<=[.!?])\s+', text)`: `prevEnd` records
whether the previous character was one of `.`, `!`, `?`; a whitespace run
at such a position is a separator and is consumed entirely; `acc` holds
the reversed current piece. -/
def splitSentencesAux : Bool → List Char → List Char → List (List Char)
  | _, acc, [] => [acc.reverse]
  | prevEnd, acc, c :: rest =>
    if prevEnd && pyIsSpace c then
      acc.reverse :: splitSentencesAux false [] (rest.dropWhile pyIsSpace)
    else
      splitSentencesAux (isSentenceEnd c) (c :: acc) rest
  termination_by _ _ l => l.length
  decreasing_by
  · simp only [List.length_cons]
    exact Nat.lt_succ_of_le (length_dropWhile_le pyIsSpace rest)
  · simp [Nat.lt_succ_self]

/-- `re.split(r'(?<=[.!?])\s+', text)` (`openaifm.py` line 66). -/
def splitSentences (text : List Char) : List (List Char) :=
  splitSentencesAux false [] text

/-- The greedy packing loop of `chunk_text` (`openaifm.py` lines 67-79):
`cur` is `current_chunk`; a sentence is appended (followed by a space) when
it fits, otherwise the non-empty current chunk is flushed stripped and the
sentence starts a new chunk. -/
def packAux (maxLen : Nat) : List Char → List (List Char) → List (List Char)
  | cur, [] => if cur = [] then [] else [stripChars cur]
  | cur, s :: rest =>
    if cur.length + s.length + 1 ≤ maxLen then
      packAux maxLen (cur ++ s ++ [' ']) rest
    else
      (if cur = [] then [] else [stripChars cur]) ++ packAux maxLen (s ++ [' ']) rest

/-- `OpenAIFMTTSGenerator.chunk_text` (`openaifm.py` lines 60-81); the
default `max_length` in the source is 4000. -/
def chunk_text (maxLen : Nat) (text : List Char) : List (List Char) :=
  if text.length ≤ maxLen then [text]
  else packAux maxLen [] (splitSentences text)

/-- Concatenation of a group of sentences each followed by the single
space the packing loop appends: the exact content of `current_chunk`
after the sentences of `g` have been accumulated. -/
def joinTrail (g : List (List Char)) : List Char :=
  (g.map (fun s => s ++ [' '])).join

/- ### `openaifm.py` : voice configuration -/

/-- `TTSConfig` (`openaifm.py` lines 36-40); the float `speed` is modelled
as an exact rational. -/
structure TTSConfig where
  voice : String
  prompt : String
  speed : ℚ
deriving DecidableEq

/-- One element of the `character_voices` array of the configuration file
(`openaifm.py` lines 153-158): `prompt` and `speed` are optional fields. -/
structure VoiceEntry where
  character : String
  voice : String
  prompt : Option String
  speed : Option ℚ

/-- The optional `default` object of the configuration file
(`openaifm.py` lines 161-167). -/
structure DefaultVoice where
  voice : String
  prompt : Option String
  speed : Option ℚ

/-- Construction of a `TTSConfig` from configuration fields, with the
source's defaults `prompt=""` and `speed=1.0`. -/
def entryConfig (voice : String) (prompt : Option String) (speed : Option ℚ) : TTSConfig :=
  ⟨voice, prompt.getD "", speed.getD 1⟩

/-- `BookTTSProcessor.load_config` (`openaifm.py` lines 144-173), modelled
as the lookup function of the built dictionary: character keys are
uppercased; a later entry with the same key overwrites an earlier one; the
`DEFAULT` key is written last, when a default is configured. -/
def load_config (entries : List VoiceEntry) (dflt : Option DefaultVoice) :
    String → Option TTSConfig :=
  let base := entries.foldl
    (fun m e => fun k =>
      if k = pyUpper e.character then some (entryConfig e.voice e.prompt e.speed) else m k)
    (fun _ => none)
  match dflt with
  | some d => fun k => if k = "DEFAULT" then some (entryConfig d.voice d.prompt d.speed) else base k
  | none => base

/-- `BookTTSProcessor.get_character_config` (`openaifm.py` lines 175-185). -/
def get_character_config (config : String → Option TTSConfig) (speaker : String) : TTSConfig :=
  match config (pyUpper speaker) with
  | some c => c
  | none =>
    match config "DEFAULT" with
    | some d => d
    | none => ⟨"alloy", "", 1⟩

/- ### `openaifm.py` : filename generation -/

/-- Python's regex word class `\w` for Unicode string patterns (underscore
or Unicode alphanumeric), modelled for code points up to U+00FF: the ASCII
word characters plus, in the Latin-1 supplement, `ª µ º ² ³ ¹ ¼ ½ ¾` and
the letters `À`-`Ö`, `Ø`-`ö`, `ø`-`ÿ`.  Code points above U+00FF are
outside the model and treated as non-word characters. -/
def pyWordChar (c : Char) : Bool :=
  ('0' ≤ c && c ≤ '9') || ('A' ≤ c && c ≤ 'Z') || ('a' ≤ c && c ≤ 'z') || c = '_' ||
  c = 'ª' || c = 'µ' || c = 'º' || c = '²' || c = '³' || c = '¹' || c = '¼' || c = '½' || c = '¾' ||
  ('À' ≤ c && c ≤ 'Ö') || ('Ø' ≤ c && c ≤ 'ö') || ('ø' ≤ c && c ≤ 'ÿ')

/-- `re.sub(r'[^\w\-_]', '_', speaker)` (`openaifm.py` line 189): every
character that is not a word character, a hyphen or an underscore is
replaced by an underscore. -/
def sanitizeSpeaker (speaker : List Char) : List Char :=
  speaker.map (fun c => if pyWordChar c || c = '-' || c = '_' then c else '_')

/-- The decimal digit characters, least significant last, of a natural
number, as produced by Python's `format`. -/
def digitChar : Nat → Char
  | 0 => '0' | 1 => '1' | 2 => '2' | 3 => '3' | 4 => '4'
  | 5 => '5' | 6 => '6' | 7 => '7' | 8 => '8' | _ + 9 => '9'

/-- Decimal digit string of a natural number (most significant first). -/
def natDigits (n : Nat) : List Char :=
  if h : n < 10 then [digitChar n]
  else natDigits (n / 10) ++ [digitChar (n % 10)]
  decreasing_by exact Nat.div_lt_self (by omega) (by omega)

/-- Python's `format(n, '0wd')` zero padding: pad the decimal digits of
`n` with leading zeros to width `w` (more digits are kept unchanged). -/
def padNum (w n : Nat) : List Char :=
  List.replicate (w - (natDigits n).length) '0' ++ natDigits n

/-- The literal `_chunk_` infix of the chunked filename format. -/
def chunkTag : List Char := ['_', 'c', 'h', 'u', 'n', 'k', '_']

/-- The literal `.mp3` extension. -/
def mp3Ext : List Char := ['.', 'm', 'p', '3']

/-- `BookTTSProcessor.generate_filename` (`openaifm.py` lines 187-193):
`f"{line_number:04d}_{safe_speaker}.mp3"`, with an `_chunk_{index:02d}`
infix before the extension when `chunk_index > 0`. -/
def generate_filename (speaker : List Char) (line_number chunk_index : Nat) : List Char :=
  let safe_speaker := sanitizeSpeaker speaker
  if 0 < chunk_index then
    padNum 4 line_number ++ '_' :: (safe_speaker ++ chunkTag ++ padNum 2 chunk_index ++ mp3Ext)
  else
    padNum 4 line_number ++ '_' :: (safe_speaker ++ mp3Ext)

/-- Decimal value of a digit string (inverse of `padNum`/`natDigits`). -/
def decValue (l : List Char) : Nat :=
  l.foldl (fun acc c => 10 * acc + (c.toNat - 48)) 0

/- ### Lemmas about `wordsOf` -/

theorem wordsAux_space_split {c : Char} (hc : pyIsSpace c = true) :
    ∀ (x : List Char) (cur y : List Char),
    wordsAux cur (x ++ c :: y) = wordsAux cur x ++ wordsAux [] y := by
  intro x
  induction x with
  | nil =>
    intro cur y
    simp [wordsAux, hc]
  | cons a x ih =>
    intro cur y
    by_cases ha : pyIsSpace a = true
    · simp [wordsAux, ha, ih [], List.append_assoc]
    · simp only [List.cons_append, wordsAux, ha, Bool.false_eq_true, if_false]
      exact ih (a :: cur) y

theorem wordsOf_space_split {c : Char} (hc : pyIsSpace c = true) (x y : List Char) :
    wordsOf (x ++ c :: y) = wordsOf x ++ wordsOf y :=
  wordsAux_space_split hc x [] y

theorem wordsOf_dropWhile (l : List Char) :
    wordsOf (l.dropWhile pyIsSpace) = wordsOf l := by
  induction l with
  | nil => rfl
  | cons c rest ih =>
    by_cases hc : pyIsSpace c = true
    · simpa [wordsOf, wordsAux, List.dropWhile_cons, hc] using ih
    · simp [List.dropWhile_cons, hc]

theorem wordsAux_all_space {s : List Char} (hs : ∀ c ∈ s, pyIsSpace c = true) :
    wordsAux [] s = [] := by
  induction s with
  | nil => rfl
  | cons c rest ih =>
    have hc : pyIsSpace c = true := hs c (by simp)
    have ih' : wordsAux [] rest = [] := ih (fun d hd => hs d (by simp [hd]))
    simp [wordsAux, hc, ih']

theorem wordsAux_append_space {s : List Char} (hs : ∀ c ∈ s, pyIsSpace c = true) :
    ∀ (x : List Char) (cur : List Char), wordsAux cur (x ++ s) = wordsAux cur x := by
  intro x
  induction x with
  | nil =>
    intro cur
    cases s with
    | nil => rfl
    | cons c rest =>
      have hc : pyIsSpace c = true := hs c (by simp)
      have hrest : wordsAux [] rest = [] :=
        wordsAux_all_space (fun d hd => hs d (by simp [hd]))
      simp [wordsAux, hc, hrest]
  | cons a x ih =>
    intro cur
    by_cases ha : pyIsSpace a = true
    · simp [wordsAux, ha, ih []]
    · simp only [List.cons_append, wordsAux, ha, Bool.false_eq_true, if_false]
      exact ih (a :: cur)

theorem wordsOf_append_space {s : List Char} (hs : ∀ c ∈ s, pyIsSpace c = true)
    (x : List Char) : wordsOf (x ++ s) = wordsOf x :=
  wordsAux_append_space hs x []

theorem wordsOf_strip (l : List Char) : wordsOf (stripChars l) = wordsOf l := by
  have h1 : wordsOf (l.dropWhile pyIsSpace) = wordsOf l := wordsOf_dropWhile l
  set m := l.dropWhile pyIsSpace with hm
  have hdecomp : m.reverse.takeWhile pyIsSpace ++ m.reverse.dropWhile pyIsSpace
      = m.reverse := List.takeWhile_append_dropWhile pyIsSpace m.reverse
  have hrev : (m.reverse.dropWhile pyIsSpace).reverse
      ++ (m.reverse.takeWhile pyIsSpace).reverse = m := by
    have h2 := congrArg List.reverse hdecomp
    rw [List.reverse_append] at h2
    rw [h2, List.reverse_reverse]
  have hspace : ∀ c ∈ (m.reverse.takeWhile pyIsSpace).reverse, pyIsSpace c = true := by
    intro c hc
    exact List.mem_takeWhile_imp (List.mem_reverse.mp hc)
  calc wordsOf (stripChars l)
      = wordsOf ((m.reverse.dropWhile pyIsSpace).reverse) := rfl
    _ = wordsOf ((m.reverse.dropWhile pyIsSpace).reverse
          ++ (m.reverse.takeWhile pyIsSpace).reverse) :=
        (wordsOf_append_space hspace _).symm
    _ = wordsOf m := by rw [hrev]
    _ = wordsOf l := h1

/- ### Lemmas about `joinSp`, `splitSentences` and `packAux` -/

theorem pyIsSpace_sp : pyIsSpace ' ' = true := by decide

theorem wordsOf_joinSp_cons (x : List Char) (xs : List (List Char)) :
    wordsOf (joinSp (x :: xs)) = wordsOf x ++ wordsOf (joinSp xs) := by
  cases xs with
  | nil => simp [joinSp, wordsOf, wordsAux]
  | cons y ys =>
    have h : joinSp (x :: y :: ys) = x ++ ' ' :: joinSp (y :: ys) := rfl
    rw [h, wordsOf_space_split pyIsSpace_sp]

theorem splitSentencesAux_words :
    ∀ (n : Nat) (l : List Char), l.length ≤ n → ∀ (b : Bool) (acc : List Char),
    wordsOf (joinSp (splitSentencesAux b acc l)) = wordsOf (acc.reverse ++ l) := by
  intro n
  induction n with
  | zero =>
    intro l hl b acc
    have hnil : l = [] := List.length_eq_zero.mp (Nat.le_zero.mp hl)
    subst hnil
    simp [splitSentencesAux, joinSp]
  | succ n ih =>
    intro l hl b acc
    cases l with
    | nil => simp [splitSentencesAux, joinSp]
    | cons c rest =>
      by_cases hsep : (b && pyIsSpace c) = true
      · obtain ⟨hb, hc⟩ : b = true ∧ pyIsSpace c = true := by simpa using hsep
        have hunf : splitSentencesAux b acc (c :: rest)
            = acc.reverse :: splitSentencesAux false [] (rest.dropWhile pyIsSpace) := by
          rw [splitSentencesAux]
          simp [hsep]
        rw [hunf, wordsOf_joinSp_cons]
        have hlen : (rest.dropWhile pyIsSpace).length ≤ n := by
          have h1 := length_dropWhile_le pyIsSpace rest
          have h2 : rest.length ≤ n := by
            simpa using Nat.le_of_succ_le_succ (by simpa using hl)
          omega
        rw [ih _ hlen false []]
        simp only [List.reverse_nil, List.nil_append]
        rw [wordsOf_dropWhile rest, wordsOf_space_split hc]
      · have hunf : splitSentencesAux b acc (c :: rest)
            = splitSentencesAux (isSentenceEnd c) (c :: acc) rest := by
          rw [splitSentencesAux]
          simp [hsep]
        rw [hunf]
        have hlen : rest.length ≤ n := by
          simpa using Nat.le_of_succ_le_succ (by simpa using hl)
        rw [ih _ hlen (isSentenceEnd c) (c :: acc)]
        simp [List.append_assoc]

theorem wordsOf_joinSp_splitSentences (text : List Char) :
    wordsOf (joinSp (splitSentences text)) = wordsOf text := by
  have h := splitSentencesAux_words text.length text (Nat.le_refl _) false []
  simpa [splitSentences] using h

theorem pack_words (maxLen : Nat) :
    ∀ (sents : List (List Char)) (cur : List Char),
    (cur = [] ∨ ∃ w, cur = w ++ [' ']) →
    wordsOf (joinSp (packAux maxLen cur sents)) = wordsOf cur ++ wordsOf (joinSp sents) := by
  intro sents
  induction sents with
  | nil =>
    intro cur hcur
    rcases hcur with rfl | ⟨w, rfl⟩
    · simp [packAux, joinSp, wordsOf, wordsAux]
    · have hne : w ++ [' '] ≠ ([] : List Char) := by simp
      have hunf : packAux maxLen (w ++ [' ']) [] = [stripChars (w ++ [' '])] := by
        simp [packAux, hne]
      rw [hunf]
      have h1 : joinSp [stripChars (w ++ [' '])] = stripChars (w ++ [' ']) := rfl
      rw [h1, wordsOf_strip]
      simp [joinSp, wordsOf, wordsAux]
  | cons s rest ih =>
    intro cur hcur
    have hsp : ∀ c ∈ ([' '] : List Char), pyIsSpace c = true := by
      intro c hc
      simp at hc
      subst hc
      decide
    by_cases hfit : cur.length + s.length + 1 ≤ maxLen
    · have hunf : packAux maxLen cur (s :: rest) = packAux maxLen (cur ++ s ++ [' ']) rest := by
        simp [packAux, hfit]
      rw [hunf, ih _ (Or.inr ⟨cur ++ s, by simp⟩)]
      have hsplit : wordsOf (cur ++ s ++ [' ']) = wordsOf cur ++ wordsOf s := by
        rcases hcur with rfl | ⟨w, rfl⟩
        · simpa using wordsOf_append_space hsp s
        · have h1 : w ++ [' '] ++ s ++ [' '] = w ++ ' ' :: (s ++ [' ']) := by simp
          rw [h1, wordsOf_space_split pyIsSpace_sp, wordsOf_append_space hsp s,
            wordsOf_append_space hsp w]
      rw [hsplit, wordsOf_joinSp_cons, List.append_assoc]
    · rcases hcur with rfl | ⟨w, rfl⟩
      · have hunf : packAux maxLen [] (s :: rest) = packAux maxLen (s ++ [' ']) rest := by
          simp [packAux, hfit]
        rw [hunf, ih _ (Or.inr ⟨s, rfl⟩), wordsOf_append_space hsp s, wordsOf_joinSp_cons]
        simp [wordsOf, wordsAux]
      · have hne : w ++ [' '] ≠ ([] : List Char) := by simp
        have hunf : packAux maxLen (w ++ [' ']) (s :: rest)
            = stripChars (w ++ [' ']) :: packAux maxLen (s ++ [' ']) rest := by
          simp only [packAux]
          rw [if_neg hfit, if_neg hne]
          simp
        rw [hunf, wordsOf_joinSp_cons, wordsOf_strip, ih _ (Or.inr ⟨s, rfl⟩)]
        simp [wordsOf_append_space hsp s, wordsOf_joinSp_cons, List.append_assoc]

theorem length_stripChars_le (l : List Char) : (stripChars l).length ≤ l.length := by
  unfold stripChars
  have h1 := length_dropWhile_le pyIsSpace l
  have h2 := length_dropWhile_le pyIsSpace (l.dropWhile pyIsSpace).reverse
  simp only [List.length_reverse] at h2 ⊢
  omega

theorem stripChars_append_space (x : List Char) :
    stripChars (x ++ [' ']) = stripChars x := by
  unfold stripChars
  rw [List.dropWhile_append]
  by_cases h : (x.dropWhile pyIsSpace).isEmpty
  · rw [if_pos h]
    have h2 : x.dropWhile pyIsSpace = [] := by simpa using h
    rw [h2]
    simp [List.dropWhile]
  · rw [if_neg h]
    simp only [List.reverse_append, List.reverse_singleton, List.singleton_append]
    have hsp : pyIsSpace ' ' = true := by decide
    simp [List.dropWhile_cons, hsp]

theorem splitSentencesAux_ne_nil :
    ∀ (l : List Char) (b : Bool) (acc : List Char), splitSentencesAux b acc l ≠ [] := by
  intro l
  induction l with
  | nil =>
    intro b acc
    simp [splitSentencesAux]
  | cons c rest ih =>
    intro b acc
    rw [splitSentencesAux]
    by_cases hsep : (b && pyIsSpace c) = true
    · simp [hsep]
    · simp only [hsep, Bool.false_eq_true, if_false]
      exact ih _ _

theorem joinTrail_cons (x : List Char) (xs : List (List Char)) :
    joinTrail (x :: xs) = (x ++ [' ']) ++ joinTrail xs := by
  simp [joinTrail]

theorem joinTrail_append (a b : List (List Char)) :
    joinTrail (a ++ b) = joinTrail a ++ joinTrail b := by
  simp [joinTrail]

theorem joinTrail_ne_nil {g : List (List Char)} (h : g ≠ []) : joinTrail g ≠ [] := by
  cases g with
  | nil => exact absurd rfl h
  | cons x xs => simp [joinTrail]

theorem pack_groups (maxLen : Nat) :
    ∀ (sents : List (List Char)) (g0 : List (List Char)), g0 ≠ [] →
    ∃ (h : List (List Char)) (rest : List (List (List Char))),
      sents = h ++ rest.join ∧ (∀ r ∈ rest, r ≠ []) ∧
      packAux maxLen (joinTrail g0) sents
        = stripChars (joinTrail (g0 ++ h)) :: rest.map (fun g => stripChars (joinTrail g)) := by
  intro sents
  induction sents with
  | nil =>
    intro g0 hg0
    refine ⟨[], [], by simp, by simp, ?_⟩
    have hne := joinTrail_ne_nil hg0
    simp [packAux, hne]
  | cons s ss ih =>
    intro g0 hg0
    by_cases hfit : (joinTrail g0).length + s.length + 1 ≤ maxLen
    · have hjt : joinTrail g0 ++ s ++ [' '] = joinTrail (g0 ++ [s]) := by
        rw [joinTrail_append]
        simp [joinTrail, List.append_assoc]
      have hunf : packAux maxLen (joinTrail g0) (s :: ss)
          = packAux maxLen (joinTrail (g0 ++ [s])) ss := by
        simp only [packAux]
        rw [if_pos hfit, hjt]
      obtain ⟨h, rest, hsents, hrest, hpack⟩ := ih (g0 ++ [s]) (by simp)
      refine ⟨s :: h, rest, by simp [hsents], hrest, ?_⟩
      rw [hunf, hpack]
      have hgg : g0 ++ [s] ++ h = g0 ++ (s :: h) := by simp
      rw [hgg]
    · have hne := joinTrail_ne_nil hg0
      have hunf : packAux maxLen (joinTrail g0) (s :: ss)
          = stripChars (joinTrail g0) :: packAux maxLen (joinTrail [s]) ss := by
        simp only [packAux]
        rw [if_neg hfit, if_neg hne]
        simp [joinTrail]
      obtain ⟨h, rest, hsents, hrest, hpack⟩ := ih [s] (by simp)
      refine ⟨[], (s :: h) :: rest, by simp [hsents], ?_, ?_⟩
      · intro r hr
        rcases List.mem_cons.mp hr with rfl | hr2
        · simp
        · exact hrest r hr2
      · rw [hunf, hpack]
        simp

theorem pack_size (maxLen : Nat) :
    ∀ (sents : List (List Char)) (S : List (List Char)) (cur : List Char),
    (∀ s ∈ sents, s ∈ S) →
    (cur = [] ∨ cur.length ≤ maxLen ∨ ∃ s ∈ S, cur = s ++ [' ']) →
    ∀ chunk ∈ packAux maxLen cur sents,
      chunk.length ≤ maxLen ∨ ∃ s ∈ S, chunk = stripChars s := by
  intro sents
  induction sents with
  | nil =>
    intro S cur hS hcur chunk hchunk
    by_cases h : cur = []
    · simp [packAux, h] at hchunk
    · simp only [packAux, if_neg h, List.mem_singleton] at hchunk
      subst hchunk
      rcases hcur with rfl | hle | ⟨s, hsS, rfl⟩
      · exact absurd rfl h
      · exact Or.inl (le_trans (length_stripChars_le cur) hle)
      · exact Or.inr ⟨s, hsS, stripChars_append_space s⟩
  | cons s ss ih =>
    intro S cur hS hcur chunk hchunk
    have hsS : s ∈ S := hS s (by simp)
    have hssS : ∀ t ∈ ss, t ∈ S := fun t ht => hS t (by simp [ht])
    by_cases hfit : cur.length + s.length + 1 ≤ maxLen
    · rw [show packAux maxLen cur (s :: ss) = packAux maxLen (cur ++ s ++ [' ']) ss by
        simp only [packAux]; rw [if_pos hfit]] at hchunk
      refine ih S _ hssS (Or.inr (Or.inl ?_)) chunk hchunk
      simp only [List.length_append, List.length_singleton]
      omega
    · rw [show packAux maxLen cur (s :: ss)
          = (if cur = [] then [] else [stripChars cur]) ++ packAux maxLen (s ++ [' ']) ss by
        simp only [packAux]; rw [if_neg hfit]] at hchunk
      rcases List.mem_append.mp hchunk with hmem | hmem
      · by_cases h : cur = []
        · simp [h] at hmem
        · simp only [if_neg h, List.mem_singleton] at hmem
          subst hmem
          rcases hcur with rfl | hle | ⟨t, htS, rfl⟩
          · exact absurd rfl h
          · exact Or.inl (le_trans (length_stripChars_le cur) hle)
          · exact Or.inr ⟨t, htS, stripChars_append_space t⟩
      · exact ih S _ hssS (Or.inr (Or.inr ⟨s, hsS, rfl⟩)) chunk hmem

theorem pack_nil_cons (maxLen : Nat) (s : List Char) (ss : List (List Char)) :
    packAux maxLen [] (s :: ss) = packAux maxLen (s ++ [' ']) ss := by
  simp only [packAux]
  by_cases hfit : List.length ([] : List Char) + s.length + 1 ≤ maxLen
  · rw [if_pos hfit]
    simp
  · rw [if_neg hfit]
    simp

/-- C6: joining the chunks returned by `chunk_text` with single spaces
reproduces the input text up to whitespace collapsing (runs of whitespace
reduced to single spaces, plus trimming): the whitespace-separated token
sequence of the joined chunks is exactly that of the input, so no text is
dropped, duplicated or reordered by chunking.  This holds for every
configured maximum, in particular the source default 4000. -/
theorem C6_chunker_roundtrip (maxLen : Nat) (text : List Char) :
    wordsOf (joinSp (chunk_text maxLen text)) = wordsOf text := by
  by_cases h : text.length ≤ maxLen
  · simp [chunk_text, h, joinSp]
  · have h1 : chunk_text maxLen text = packAux maxLen [] (splitSentences text) := by
      simp [chunk_text, h]
    rw [h1, pack_words maxLen _ [] (Or.inl rfl)]
    have h2 := wordsOf_joinSp_splitSentences text
    simpa [wordsOf, wordsAux] using h2

/-- C7: `chunk_text` returns the input as a single chunk when it fits the
maximum; otherwise it splits only at the boundaries produced by the
sentence pattern `(?<=[.!?])\s+` — every chunk is a stripped concatenation
of a consecutive non-empty group of sentences, the groups covering the
sentence sequence in order — and every chunk longer than the maximum is a
single (stripped) sentence itself longer than the maximum, emitted whole
rather than truncated or split mid-sentence. -/
theorem C7_chunk_bounds (maxLen : Nat) (text : List Char) :
    (text.length ≤ maxLen → chunk_text maxLen text = [text]) ∧
    (∀ chunk ∈ chunk_text maxLen text, maxLen < chunk.length →
      ∃ s ∈ splitSentences text, chunk = stripChars s ∧ maxLen < s.length) ∧
    (maxLen < text.length →
      ∃ gs : List (List (List Char)), gs ≠ [] ∧ gs.join = splitSentences text ∧
        (∀ g ∈ gs, g ≠ []) ∧
        chunk_text maxLen text = gs.map (fun g => stripChars (joinTrail g))) := by
  refine ⟨fun h => by simp [chunk_text, h], ?_, ?_⟩
  · intro chunk hchunk hlong
    by_cases h : text.length ≤ maxLen
    · simp only [chunk_text, if_pos h, List.mem_singleton] at hchunk
      subst hchunk
      omega
    · rw [show chunk_text maxLen text = packAux maxLen [] (splitSentences text) by
        simp [chunk_text, h]] at hchunk
      have hsz := pack_size maxLen (splitSentences text) (splitSentences text) []
        (fun s hs => hs) (Or.inl rfl) chunk hchunk
      rcases hsz with hle | ⟨s, hsmem, rfl⟩
      · omega
      · refine ⟨s, hsmem, rfl, ?_⟩
        have := length_stripChars_le s
        omega
  · intro h
    have hne : splitSentences text ≠ [] := splitSentencesAux_ne_nil text false []
    obtain ⟨s, ss, hss⟩ : ∃ s ss, splitSentences text = s :: ss := by
      cases hsp : splitSentences text with
      | nil => exact absurd hsp hne
      | cons a as => exact ⟨a, as, rfl⟩
    have hct : chunk_text maxLen text = packAux maxLen (joinTrail [s]) ss := by
      have h1 : chunk_text maxLen text = packAux maxLen [] (s :: ss) := by
        simp [chunk_text, Nat.not_le.mpr h, hss]
      rw [h1, pack_nil_cons]
      have h2 : joinTrail [s] = s ++ [' '] := by simp [joinTrail]
      rw [h2]
    obtain ⟨g1, rest, hsents, hrest, hpack⟩ := pack_groups maxLen ss [s] (by simp)
    refine ⟨(s :: g1) :: rest, by simp, ?_, ?_, ?_⟩
    · rw [hss]
      simp [hsents]
    · intro g hg
      rcases List.mem_cons.mp hg with rfl | hg2
      · simp
      · exact hrest g hg2
    · rw [hct, hpack]
      simp

/- ### Candidate-scanner lemmas -/

theorem extractAux_mem (lines : List (List Char)) :
    ∀ (idx i : Nat) (line : List Char), lines.get? i = some line →
    stripChars line ≠ [] → isCandidate (stripChars line) = true →
    (stripChars line, idx + i + 1) ∈ extractAux idx lines := by
  induction lines with
  | nil =>
    intro idx i line h
    simp at h
  | cons l rest ih =>
    intro idx i line h hne hcand
    cases i with
    | zero =>
      simp only [List.get?_cons_zero, Option.some.injEq] at h
      subst h
      simp [extractAux, hne, hcand]
    | succ j =>
      have hmem := ih (idx + 1) j line (by simpa using h) hne hcand
      have harith : idx + 1 + j + 1 = idx + (j + 1) + 1 := by omega
      rw [harith] at hmem
      simp only [extractAux, List.mem_append]
      exact Or.inr hmem

theorem extractAux_snd_gt (lines : List (List Char)) :
    ∀ (idx : Nat) (p : List Char × Nat), p ∈ extractAux idx lines → idx < p.2 := by
  induction lines with
  | nil =>
    intro idx p h
    simp [extractAux] at h
  | cons l rest ih =>
    intro idx p h
    simp only [extractAux, List.mem_append] at h
    rcases h with h | h
    · by_cases hc : stripChars l ≠ [] ∧ isCandidate (stripChars l) = true
      · rw [if_pos hc] at h
        simp at h
        subst h
        omega
      · rw [if_neg hc] at h
        simp at h
    · have := ih (idx + 1) p h
      omega

theorem extractAux_pairwise (lines : List (List Char)) :
    ∀ idx : Nat, (extractAux idx lines).Pairwise (fun a b => a.2 < b.2) := by
  induction lines with
  | nil =>
    intro idx
    simp [extractAux]
  | cons l rest ih =>
    intro idx
    simp only [extractAux]
    by_cases hc : stripChars l ≠ [] ∧ isCandidate (stripChars l) = true
    · rw [if_pos hc]
      simp only [List.singleton_append, List.pairwise_cons]
      exact ⟨fun p hp => extractAux_snd_gt rest (idx + 1) p hp, ih (idx + 1)⟩
    · rw [if_neg hc]
      simp only [List.nil_append]
      exact ih (idx + 1)

theorem extractAux_nonblank (lines : List (List Char)) :
    ∀ (idx : Nat) (p : List Char × Nat), p ∈ extractAux idx lines → p.1 ≠ [] := by
  induction lines with
  | nil =>
    intro idx p h
    simp [extractAux] at h
  | cons l rest ih =>
    intro idx p h
    simp only [extractAux, List.mem_append] at h
    rcases h with h | h
    · by_cases hc : stripChars l ≠ [] ∧ isCandidate (stripChars l) = true
      · rw [if_pos hc] at h
        simp at h
        subst h
        exact hc.1
      · rw [if_neg hc] at h
        simp at h
    · exact ih (idx + 1) p h

/- ### Claim C10 -/

/-- C10: the candidate predicate of `extract_potential_dialogue` (contains
a straight double quote or straight single quote, or starts with one, or
contains an em dash or en dash) is equivalent to the simpler predicate
"contains one of the four characters": the `startswith` clauses are
redundant, since a line starting with a quote also contains it. -/
theorem C10_candidate_predicate_equiv (line : List Char) :
    isCandidate line = specCandidate line := by
  unfold isCandidate specCandidate
  cases line with
  | nil => rfl
  | cons c rest =>
    by_cases h1 : c = '"'
    · subst h1
      simp [List.contains_cons]
    · by_cases h2 : c = '\''
      · subst h2
        simp [List.contains_cons]
      · simp [List.head?_cons, h1, h2]

/- ### Claim C3 -/

/-- C3 counterexample: the single line `“Hi”` is non-empty, already
stripped, and contains a curly double quote, so the claim requires it in
the scanner output with line number 1; but `extract_potential_dialogue`
tests only straight quotes and dashes (`main.py` lines 32-34) and returns
nothing for this text. -/
theorem C3_curly_quotes_missed :
    stripChars ("“Hi”".data) = "“Hi”".data ∧ "“Hi”".data ≠ [] ∧
    '“' ∈ "“Hi”".data ∧ extract_potential_dialogue ("“Hi”".data) = [] := by
  refine ⟨rfl, by decide, by decide, ?_⟩
  decide

/-- C3 (amended): `extract_potential_dialogue` includes, with its correct
1-based line number, every line whose stripped form is non-empty and passes
the code's candidate test — containing a STRAIGHT double quote, a STRAIGHT
single quote, an em dash or an en dash (or starting with a straight quote);
curly quotes are not detected.  Line numbers are strictly increasing, so
output is in original order, and blank (empty-after-strip) lines are never
included. -/
theorem C3_scanner_completeness (text : List Char) :
    (∀ (i : Nat) (line : List Char), (splitNl text).get? i = some line →
      stripChars line ≠ [] → isCandidate (stripChars line) = true →
      (stripChars line, i + 1) ∈ extract_potential_dialogue text) ∧
    (extract_potential_dialogue text).Pairwise (fun a b => a.2 < b.2) ∧
    (∀ p ∈ extract_potential_dialogue text, p.1 ≠ []) := by
  refine ⟨?_, extractAux_pairwise (splitNl text) 0, fun p hp => extractAux_nonblank _ 0 p hp⟩
  intro i line h hne hcand
  have hmem := extractAux_mem (splitNl text) 0 i line h hne hcand
  simpa using hmem

/-- C3 witness: for the two-line text `say "hi"\n\nplain`, line 1 passes the
candidate test and is reported with line number 1. -/
theorem C3_scanner_completeness_witness :
    (stripChars ("say \"hi\"".data), 1)
      ∈ extract_potential_dialogue ("say \"hi\"\n\nplain".data) :=
  (C3_scanner_completeness ("say \"hi\"\n\nplain".data)).1 0 ("say \"hi\"".data)
    (by decide) (by decide) (by decide)

/- ### Claim C1 -/

/-- C1 counterexample: a failed backend call degrades the response to `""`,
whose normalized label is the empty string; the claim requires confidence
exactly 0.3 for the empty label, but `identify_speaker` (`main.py` line 93)
tests membership in `["UNKNOWN", "NARRATOR"]` only, so the empty label
receives 0.8, and 0.8 is not 0.3. -/
theorem C1_empty_label_gets_high_confidence :
    normalizeLabel "" = "" ∧ (identify_speaker ∅ "").1.2 = 0.8 ∧ (0.8 : ℚ) ≠ 0.3 := by
  refine ⟨rfl, rfl, by norm_num⟩

/-- C1 (amended): the confidence returned by `identify_speaker` is exactly
0.8 iff the normalized label (trimmed, uppercased response) is neither
`UNKNOWN` nor `NARRATOR` — in particular the empty label produced by a
backend failure also receives 0.8 — and exactly 0.3 iff the label is
`UNKNOWN` or `NARRATOR`. -/
theorem C1_confidence_policy (chars : Finset String) (response : String) :
    ((identify_speaker chars response).1.2 = 0.8 ↔
      normalizeLabel response ≠ "UNKNOWN" ∧ normalizeLabel response ≠ "NARRATOR") ∧
    ((identify_speaker chars response).1.2 = 0.3 ↔
      normalizeLabel response = "UNKNOWN" ∨ normalizeLabel response = "NARRATOR") ∧
    (identify_speaker chars "").1.2 = 0.8 := by
  have hne : (0.8 : ℚ) ≠ 0.3 := by norm_num
  refine ⟨?_, ?_, rfl⟩
  · by_cases h : normalizeLabel response ∉ (["UNKNOWN", "NARRATOR"] : List String)
    · have hv : (identify_speaker chars response).1.2 = 0.8 := by
        simp only [identify_speaker, if_pos h]
      simp only [hv]
      simp only [List.mem_cons, List.not_mem_nil, or_false, not_or] at h
      simpa using h
    · have hv : (identify_speaker chars response).1.2 = 0.3 := by
        simp only [identify_speaker, if_neg h]
      simp only [hv]
      simp only [List.mem_cons, List.not_mem_nil, or_false, not_or, not_not] at h
      constructor
      · intro habs
        exact absurd habs.symm hne
      · intro hcontr
        rcases not_and_or.mp h with h1 | h1 <;> simp at h1 <;> simp [h1] at hcontr ⊢
  · by_cases h : normalizeLabel response ∉ (["UNKNOWN", "NARRATOR"] : List String)
    · have hv : (identify_speaker chars response).1.2 = 0.8 := by
        simp only [identify_speaker, if_pos h]
      simp only [hv]
      simp only [List.mem_cons, List.not_mem_nil, or_false, not_or] at h
      constructor
      · intro habs
        exact absurd habs hne
      · intro hcontr
        rcases hcontr with h1 | h1
        · exact absurd h1 h.1
        · exact absurd h1 h.2
    · have hv : (identify_speaker chars response).1.2 = 0.3 := by
        simp only [identify_speaker, if_neg h]
      simp only [hv]
      simp only [List.mem_cons, List.not_mem_nil, or_false, not_not] at h
      simpa using h

/-- C1 witness: a plain character name gets confidence 0.8. -/
theorem C1_confidence_policy_witness :
    (identify_speaker ∅ "Alice").1.2 = 0.8 :=
  (C1_confidence_policy ∅ "Alice").1.mpr ⟨by decide, by decide⟩

/- ### Claim C2 -/

/-- C2: evaluation at the failing input.  For a six-line document of
non-blank lines with the candidate on line 4, `parse_book` builds the
window of 1-based lines 1..6 (lines 4-3 .. 4+2 clamped), but
`identify_speaker` then assembles its prompt as
`context_lines[-3:] + [dialogue_line] + context_lines[:2]` over that whole
window, producing `[L4, L5, L6, target, L1, L2]`: the lines AFTER the
target (and the target itself, duplicated) come before it, and the
preceding lines L1, L2 come after it — not the claimed
"target positioned after the preceding context lines" (lines L5 and L6
would have to follow the target, and L1..L3 precede it). -/
theorem C2_prompt_context_order :
    contextWindow
        ["Alice spoke first.".data, "Bob answered her.".data, "Carol watched.".data,
         "\"Hello,\" said Dave.".data, "Eve laughed aloud.".data, "Frank went home.".data] 4
      = ["Alice spoke first.".data, "Bob answered her.".data, "Carol watched.".data,
         "\"Hello,\" said Dave.".data, "Eve laughed aloud.".data, "Frank went home.".data] ∧
    promptContext ("\"Hello,\" said Dave.".data)
        (contextWindow
          ["Alice spoke first.".data, "Bob answered her.".data, "Carol watched.".data,
           "\"Hello,\" said Dave.".data, "Eve laughed aloud.".data, "Frank went home.".data] 4)
      = ["\"Hello,\" said Dave.".data, "Eve laughed aloud.".data, "Frank went home.".data,
         "\"Hello,\" said Dave.".data, "Alice spoke first.".data, "Bob answered her.".data] := by
  constructor
  · rfl
  · rfl

/- ### Claim C8 -/

theorem runAttributions_snd (rs : List String) :
    ∀ chars : Finset String,
    (runAttributions chars rs).2
      = chars ∪ ((rs.map normalizeLabel).filter
          (fun s => decide (s ∉ (["UNKNOWN", "NARRATOR", ""] : List String)))).toFinset := by
  induction rs with
  | nil =>
    intro chars
    simp [runAttributions]
  | cons r rest ih =>
    intro chars
    simp only [runAttributions]
    rw [ih]
    by_cases h : normalizeLabel r ∉ (["UNKNOWN", "NARRATOR", ""] : List String)
    · simp only [identify_speaker, updateCharacters, if_pos h, List.map_cons,
        List.filter_cons, decide_eq_true h, if_true, List.toFinset_cons,
        Finset.union_insert]
      rw [Finset.insert_union]
    · simp only [identify_speaker, updateCharacters, if_neg h, List.map_cons,
        List.filter_cons]
      have hd : decide (normalizeLabel r ∉ (["UNKNOWN", "NARRATOR", ""] : List String))
          = false := by
        simpa using h
      rw [hd]
      simp

theorem runAttributions_fst (rs : List String) :
    ∀ chars : Finset String,
    (runAttributions chars rs).1 = rs.map (fun r => (identify_speaker ∅ r).1) := by
  induction rs with
  | nil =>
    intro chars
    simp [runAttributions]
  | cons r rest ih =>
    intro chars
    simp only [runAttributions, List.map_cons, List.cons.injEq]
    exact ⟨rfl, ih _⟩

/-- C8: after a full parse run over the sequence of backend responses, the
character set equals exactly the set of distinct normalized labels that
are none of `NARRATOR`, `UNKNOWN`, `""`; every attributed speaker outside
those sentinels is in the set; the set contains no sentinel and no empty
label; and it only grows during the run (the set after any prefix of the
responses is contained in the final set). -/
theorem C8_character_set (responses : List String) :
    ((runAttributions ∅ responses).2
      = ((responses.map normalizeLabel).filter
          (fun s => decide (s ∉ (["UNKNOWN", "NARRATOR", ""] : List String)))).toFinset) ∧
    (∀ p ∈ (runAttributions ∅ responses).1,
      p.1 ∉ (["UNKNOWN", "NARRATOR", ""] : List String) →
      p.1 ∈ (runAttributions ∅ responses).2) ∧
    (∀ s ∈ (runAttributions ∅ responses).2,
      s ∉ (["UNKNOWN", "NARRATOR", ""] : List String)) ∧
    (∀ pre suf, responses = pre ++ suf →
      (runAttributions ∅ pre).2 ⊆ (runAttributions ∅ responses).2) := by
  have hmain := runAttributions_snd responses ∅
  rw [Finset.empty_union] at hmain
  refine ⟨hmain, ?_, ?_, ?_⟩
  · intro p hp hout
    rw [runAttributions_fst responses ∅] at hp
    obtain ⟨r, hr, rfl⟩ := List.mem_map.mp hp
    rw [hmain]
    rw [List.mem_toFinset, List.mem_filter]
    have hsp : (identify_speaker ∅ r).1.1 = normalizeLabel r := rfl
    refine ⟨List.mem_map.mpr ⟨r, hr, hsp.symm⟩, ?_⟩
    rw [hsp] at hout ⊢
    simpa using hout
  · intro s hs
    rw [hmain, List.mem_toFinset, List.mem_filter] at hs
    simpa using hs.2
  · intro pre suf hsplit
    subst hsplit
    rw [hmain, runAttributions_snd pre ∅, Finset.empty_union]
    intro x hx
    rw [List.mem_toFinset] at hx ⊢
    rw [List.map_append, List.filter_append]
    exact List.mem_append_left _ hx

/-- C8 witness: applying the theorem to a concrete run: the character set
after the first response is contained in the final character set. -/
theorem C8_character_set_witness :
    (runAttributions ∅ ["Alice"]).2
      ⊆ (runAttributions ∅ ["Alice", " bob ", "unknown", ""]).2 :=
  (C8_character_set ["Alice", " bob ", "unknown", ""]).2.2.2
    ["Alice"] [" bob ", "unknown", ""] rfl

/- ### Claim C9 -/

/-- C9: `get_character_config` resolves, in order: the table entry for the
uppercased speaker (tables built by `load_config` are keyed by uppercased
character names, so matching is case-insensitive: speakers equal up to case
resolve identically), then the table's `DEFAULT` entry, then the hardcoded
fallback `{voice: "alloy", prompt: "", speed: 1.0}`; it always returns a
config (it is a total function), and with an empty table — which is what a
failed `load_config` produces — every speaker resolves to the fallback. -/
theorem C9_voice_resolution (entries : List VoiceEntry) (dflt : Option DefaultVoice)
    (speaker : String) :
    (∀ c, load_config entries dflt (pyUpper speaker) = some c →
      get_character_config (load_config entries dflt) speaker = c) ∧
    (load_config entries dflt (pyUpper speaker) = none →
      ∀ d, load_config entries dflt "DEFAULT" = some d →
        get_character_config (load_config entries dflt) speaker = d) ∧
    (load_config entries dflt (pyUpper speaker) = none →
      load_config entries dflt "DEFAULT" = none →
      get_character_config (load_config entries dflt) speaker = ⟨"alloy", "", 1⟩) ∧
    (∀ s2, pyUpper speaker = pyUpper s2 →
      get_character_config (load_config entries dflt) speaker
        = get_character_config (load_config entries dflt) s2) ∧
    get_character_config (fun _ => none) speaker = ⟨"alloy", "", 1⟩ := by
  refine ⟨?_, ?_, ?_, ?_, rfl⟩
  · intro c hc
    unfold get_character_config
    rw [hc]
  · intro hnone d hd
    unfold get_character_config
    rw [hnone, hd]
  · intro hnone hnodef
    unfold get_character_config
    rw [hnone, hnodef]
  · intro s2 hcase
    unfold get_character_config
    rw [hcase]

/-- C9 witness: with a one-entry table `{alice → nova}` (keys are
uppercased on load), the speaker `Alice` resolves to the `nova` entry, and
with the empty table it resolves to the hardcoded fallback. -/
theorem C9_voice_resolution_witness :
    get_character_config (load_config [⟨"alice", "nova", none, none⟩] none) "Alice"
      = ⟨"nova", "", 1⟩ ∧
    get_character_config (fun _ => none) "Alice" = ⟨"alloy", "", 1⟩ :=
  ⟨(C9_voice_resolution [⟨"alice", "nova", none, none⟩] none "Alice").1 ⟨"nova", "", 1⟩ rfl,
   (C9_voice_resolution [] none "Alice").2.2.2.2⟩

/- ### Digit-string lemmas for the filename format -/

theorem digitChar_isDigit (m : Nat) : (digitChar m).isDigit = true := by
  rcases m with _ | _ | _ | _ | _ | _ | _ | _ | _ | m <;> rfl

theorem digitChar_toNat (m : Nat) (h : m < 10) : (digitChar m).toNat - 48 = m := by
  interval_cases m <;> rfl

theorem natDigits_all_digits (n : Nat) : ∀ c ∈ natDigits n, c.isDigit = true := by
  induction n using Nat.strong_induction_on with
  | _ n ih =>
    intro c hc
    rw [natDigits] at hc
    by_cases h : n < 10
    · rw [dif_pos h] at hc
      simp at hc
      subst hc
      exact digitChar_isDigit n
    · rw [dif_neg h] at hc
      rcases List.mem_append.mp hc with hm | hm
      · exact ih (n / 10) (Nat.div_lt_self (by omega) (by omega)) c hm
      · simp at hm
        subst hm
        exact digitChar_isDigit (n % 10)

theorem isDigit_ne_underscore {c : Char} (h : c.isDigit = true) : c ≠ '_' := by
  intro hc
  subst hc
  simp [Char.isDigit] at h

theorem decValue_natDigits (n : Nat) : decValue (natDigits n) = n := by
  induction n using Nat.strong_induction_on with
  | _ n ih =>
    rw [natDigits]
    by_cases h : n < 10
    · rw [dif_pos h]
      simp only [decValue, List.foldl_cons, List.foldl_nil, Nat.mul_zero, Nat.zero_add]
      exact digitChar_toNat n h
    · rw [dif_neg h]
      simp only [decValue, List.foldl_append, List.foldl_cons, List.foldl_nil]
      have ihv := ih (n / 10) (Nat.div_lt_self (by omega) (by omega))
      simp only [decValue] at ihv
      rw [ihv, digitChar_toNat (n % 10) (Nat.mod_lt _ (by omega))]
      omega

theorem foldl_dec_replicate_zero (k : Nat) :
    List.foldl (fun acc c => 10 * acc + (c.toNat - 48)) 0 (List.replicate k '0') = 0 := by
  induction k with
  | zero => rfl
  | succ m ih =>
    rw [List.replicate_succ, List.foldl_cons]
    simpa using ih

theorem decValue_padNum (w n : Nat) : decValue (padNum w n) = n := by
  unfold padNum decValue
  rw [List.foldl_append, foldl_dec_replicate_zero]
  exact decValue_natDigits n

theorem padNum_no_underscore (w n : Nat) : ∀ c ∈ padNum w n, c ≠ '_' := by
  intro c hc
  rcases List.mem_append.mp hc with hm | hm
  · have := List.eq_of_mem_replicate hm
    subst this
    decide
  · exact isDigit_ne_underscore (natDigits_all_digits n c hm)

theorem padNum_all_digits (w n : Nat) : ∀ c ∈ padNum w n, c.isDigit = true := by
  intro c hc
  rcases List.mem_append.mp hc with hm | hm
  · have := List.eq_of_mem_replicate hm
    subst this
    rfl
  · exact natDigits_all_digits n c hm

theorem padNum_length (w n : Nat) : w ≤ (padNum w n).length := by
  unfold padNum
  rw [List.length_append, List.length_replicate]
  omega

theorem padNum_inj {w n1 n2 : Nat} (h : padNum w n1 = padNum w n2) : n1 = n2 := by
  have h1 := decValue_padNum w n1
  have h2 := decValue_padNum w n2
  rw [← h1, ← h2, h]

theorem append_underscore_inj :
    ∀ (a b x y : List Char), (∀ c ∈ a, c ≠ '_') → (∀ c ∈ b, c ≠ '_') →
    a ++ '_' :: x = b ++ '_' :: y → a = b ∧ x = y := by
  intro a
  induction a with
  | nil =>
    intro b x y _ hb h
    cases b with
    | nil => simpa using h
    | cons d b' =>
      simp only [List.nil_append, List.cons_append, List.cons.injEq] at h
      exact absurd h.1.symm (hb d (by simp))
  | cons c a' ih =>
    intro b x y ha hb h
    cases b with
    | nil =>
      simp only [List.nil_append, List.cons_append, List.cons.injEq] at h
      exact absurd h.1 (ha c (by simp))
    | cons d b' =>
      simp only [List.cons_append, List.cons.injEq] at h
      obtain ⟨rfl, h2⟩ := h
      obtain ⟨rfl, rfl⟩ := ih b' x y (fun e he => ha e (by simp [he]))
        (fun e he => hb e (by simp [he])) h2
      exact ⟨rfl, rfl⟩

/- ### Claim C5 -/

/-- C5 counterexample: sanitization is not injective — the distinct triples
`("A!", 1, 0)` and `("A?", 1, 0)` both map to `0001_A_.mp3`, so filenames
are NOT collision-free across distinct (speaker, line, chunk) triples. -/
theorem C5_filename_collision :
    generate_filename ("A!".data) 1 0 = generate_filename ("A?".data) 1 0 ∧
    "A!".data ≠ "A?".data ∧
    generate_filename ("A!".data) 1 0 = "0001_A_.mp3".data := by
  have h1 : generate_filename ("A!".data) 1 0 = "0001_A_.mp3".data := by
    unfold generate_filename sanitizeSpeaker padNum
    rw [natDigits]
    norm_num
    decide
  have h2 : generate_filename ("A?".data) 1 0 = "0001_A_.mp3".data := by
    unfold generate_filename sanitizeSpeaker padNum
    rw [natDigits]
    norm_num
    decide
  exact ⟨h1.trans h2.symm, by decide, h1⟩

/-- C5 (amended): for each FIXED speaker the filename determines the line
number and chunk index — two chunks of the same speaker can never map to
the same output file; collisions require two distinct speaker strings
(whose sanitized forms coincide, as in the counterexample). -/
theorem C5_filename_injective_per_speaker (speaker : List Char) (n1 c1 n2 c2 : Nat)
    (h : generate_filename speaker n1 c1 = generate_filename speaker n2 c2) :
    n1 = n2 ∧ c1 = c2 := by
  unfold generate_filename at h
  have hmp3 : mp3Ext.length = 4 := rfl
  have htag : chunkTag.length = 7 := rfl
  by_cases h1 : 0 < c1 <;> by_cases h2 : 0 < c2
  · rw [if_pos h1, if_pos h2] at h
    obtain ⟨hpad, htail⟩ := append_underscore_inj _ _ _ _
      (padNum_no_underscore 4 n1) (padNum_no_underscore 4 n2) h
    refine ⟨padNum_inj hpad, ?_⟩
    simp only [List.append_assoc] at htail
    have htail2 := List.append_cancel_left htail
    have htail3 := List.append_cancel_left htail2
    have hlen := congrArg List.length htail3
    simp only [List.length_append, hmp3] at hlen
    obtain ⟨hp, _⟩ := List.append_inj htail3 (by omega)
    exact padNum_inj hp
  · rw [if_pos h1, if_neg h2] at h
    obtain ⟨hpad, htail⟩ := append_underscore_inj _ _ _ _
      (padNum_no_underscore 4 n1) (padNum_no_underscore 4 n2) h
    simp only [List.append_assoc] at htail
    have htail2 := List.append_cancel_left htail
    have hlen := congrArg List.length htail2
    simp only [List.length_append, hmp3, htag] at hlen
    omega
  · rw [if_neg h1, if_pos h2] at h
    obtain ⟨hpad, htail⟩ := append_underscore_inj _ _ _ _
      (padNum_no_underscore 4 n1) (padNum_no_underscore 4 n2) h
    simp only [List.append_assoc] at htail
    have htail2 := List.append_cancel_left htail
    have hlen := congrArg List.length htail2
    simp only [List.length_append, hmp3, htag] at hlen
    omega
  · rw [if_neg h1, if_neg h2] at h
    obtain ⟨hpad, _⟩ := append_underscore_inj _ _ _ _
      (padNum_no_underscore 4 n1) (padNum_no_underscore 4 n2) h
    exact ⟨padNum_inj hpad, by omega⟩

/-- C5 witness: the injectivity theorem applied at a concrete input. -/
theorem C5_filename_injective_per_speaker_witness : (7 : Nat) = 7 ∧ (0 : Nat) = 0 :=
  C5_filename_injective_per_speaker ("Alice".data) 7 0 7 0 rfl

/- ### Claim C4 -/

/-- C4 counterexample: the source sanitizes with the Unicode-aware regex
class `[^\w\-_]`, and `É` (U+00C9) is a word character in Python, so the
speaker `É` is kept verbatim: the filename is `0001_É.mp3`, not the
`0001__.mp3` that the claim's ASCII class `[A-Za-z0-9_-]` would require
(`É` is outside that class). -/
theorem C4_unicode_speaker_kept :
    generate_filename ("É".data) 1 0 = "0001_É.mp3".data ∧
    "0001_É.mp3".data ≠ "0001__.mp3".data := by
  constructor
  · unfold generate_filename sanitizeSpeaker padNum
    rw [natDigits]
    norm_num
    decide
  · decide

/-- C4 (amended): `generate_filename` returns
`<line digits zero-padded to at least 4>_<sanitized speaker>.mp3` for chunk
index 0, with an `_chunk_<2-digit index>` infix before the `.mp3` extension
for chunk index > 0; the line-number field consists of digit characters
only, has length at least 4, and parses back to the line number; and
sanitization maps every character that is neither a Python word character
(`\w`, which beyond ASCII keeps accented letters such as `É`) nor `-` nor
`_` to `_` — on ASCII-only speakers this coincides with the claim's class
`[A-Za-z0-9_-]`. -/
theorem C4_filename_format (speaker : List Char) (n c : Nat) :
    generate_filename speaker n c
      = padNum 4 n ++ '_' :: (sanitizeSpeaker speaker
          ++ (if 0 < c then chunkTag ++ padNum 2 c else []) ++ mp3Ext) ∧
    (∀ ch ∈ padNum 4 n, ch.isDigit = true) ∧
    4 ≤ (padNum 4 n).length ∧
    decValue (padNum 4 n) = n ∧
    sanitizeSpeaker speaker
      = speaker.map (fun ch => if pyWordChar ch || ch = '-' || ch = '_' then ch else '_') := by
  refine ⟨?_, padNum_all_digits 4 n, padNum_length 4 n, decValue_padNum 4 n, rfl⟩
  unfold generate_filename
  by_cases hc : 0 < c
  · rw [if_pos hc, if_pos hc]
    simp [List.append_assoc]
  · rw [if_neg hc, if_neg hc]
    simp

/-- C4 witness: the format theorem applied at the concrete input of the
claim's example, `plan("Alice", 7, 0) = "0007_Alice.mp3"`. -/
theorem C4_filename_format_witness :
    generate_filename ("Alice".data) 7 0 = "0007_Alice.mp3".data := by
  have h := (C4_filename_format ("Alice".data) 7 0).1
  rw [h]
  unfold sanitizeSpeaker padNum
  rw [natDigits]
  norm_num
  decide

/-- C7 witness: the bounds theorem applied at concrete inputs: a short
text is returned whole, and for `Hi. Bye now!!` with maximum 5 the
oversized chunk `Bye now!!` is a single sentence longer than the maximum. -/
theorem C7_chunk_bounds_witness :
    chunk_text 10 ("short".data) = ["short".data] ∧
    (∃ s ∈ splitSentences ("Hi. Bye now!!".data),
      "Bye now!!".data = stripChars s ∧ 5 < s.length) := by
  have hsplit : splitSentences ("Hi. Bye now!!".data) = ["Hi.".data, "Bye now!!".data] := by
    simp [splitSentences, splitSentencesAux, pyIsSpace, isSentenceEnd]
  have hchunks : chunk_text 5 ("Hi. Bye now!!".data) = ["Hi.".data, "Bye now!!".data] := by
    rw [chunk_text, if_neg (by decide), hsplit]
    decide
  constructor
  · exact (C7_chunk_bounds 10 ("short".data)).1 (by decide)
  · refine (C7_chunk_bounds 5 ("Hi. Bye now!!".data)).2.1 ("Bye now!!".data) ?_ (by decide)
    rw [hchunks]
    decide
